import Mathlib

/-!
Verification of the `Type` module of the `codegen` crate (src/type.rs).

A `Type` is a type-reference node: a `name` string plus an ordered list of
generic-argument children (themselves `Type`s).  Construction from a string
(`Type::new`) either takes the text verbatim (no `<` present) or hands the
text to the external `syn` parser and decomposes the resulting syntax tree
with `split_name_and_generic`; forms the decomposer does not model fall back
to an opaque re-rendering (via `quote`) of the whole expression.

The external collaborators are modelled as follows.

* `SynType`/`PathSegment`/`PathArguments`/`GenericArgument` is a shallow
  embedding of the fragment of `syn`'s type AST that `split_name_and_generic`
  inspects: a path type is a non-empty list of segments (kept as
  `init ++ [last]` so the last segment, the only one whose arguments are
  read, is structurally available), each segment an identifier plus path
  arguments; every other type form is kept abstractly as the string `quote`
  would render it to.  Generic arguments are either proper type arguments
  (`GenericArgument::Type` in syn) or anything else (lifetimes, const
  arguments, associated-type bindings), again kept as their token rendering.
* `quote_render` models `quote::quote! { #ast }.to_string()`: tokens
  separated by single spaces, with `::` kept joint, which is how
  proc-macro2 token streams print (the repository's own test expects
  the rendering "& 'a mut Foo < Bar >").
* `syn::parse_str` itself is a black box; `Type::new` therefore takes the
  parse result as an explicit `Option SynType` argument (`Option.none`
  models a parse failure, on which the Rust code's `.unwrap()` panics).
* Rust's `str::contains(char)` is modelled by containment in the character
  list; `str::contains("::")` by `hasSepChars`; `str::rfind("::")` followed
  by slicing at `index + 2` by `lastSepSuffix`.
* Modelled from the spec: the `Formatter` sink (not part of this module) is
  an abstract text destination that appends characters in order, so
  rendering is modelled as the `String` the node writes.

Operations whose Rust counterpart asserts (`Type::generic`, `Type::path`)
or can panic (`Type::new` on a failed parse) return `Option`, with
`Option.none` standing for the panic.
-/

mutual

/-- The fragment of syn's type AST inspected by `split_name_and_generic`,
together with the segments, path-argument and generic-argument shapes.
Non-path types and non-type generic arguments carry their `quote`
rendering as an opaque string. -/
inductive SynType where
  | path (init : List PathSegment) (last : PathSegment)
  | other (tokens : String)

inductive PathSegment where
  | mk (ident : String) (arguments : PathArguments)

inductive PathArguments where
  | none
  | angleBracketed (args : List GenericArgument)
  | parenthesized (tokens : String)

inductive GenericArgument where
  | typeArg (t : SynType)
  | otherArg (tokens : String)

end

/-- Is this angle-bracket entry something other than a plain type argument
(a lifetime, const-expression, or associated-type binding)? -/
def GenericArgument.isOther : GenericArgument → Bool
  | GenericArgument.typeArg _ => false
  | GenericArgument.otherArg _ => true

/-- The identifier of a path segment. -/
def PathSegment.ident : PathSegment → String
  | PathSegment.mk i _ => i

/-- The path arguments of a path segment. -/
def PathSegment.arguments : PathSegment → PathArguments
  | PathSegment.mk _ a => a

/-- `Vec::join` over a separator, as used by
`segments.iter().map(...).collect::<Vec<String>>().join("::")`. -/
def joinSep (sep : String) : List String → String
  | [] => ""
  | [a] => a
  | a :: b :: rest => a ++ (sep ++ joinSep sep (b :: rest))

mutual

/-- Model of `quote::quote! { #ast }.to_string()`: the token-stream
printing of the AST (tokens space-separated, `::` joint). -/
def quote_render : SynType → String
  | SynType.path init last => joinSep " :: " (renderSegs init ++ [renderSeg last])
  | SynType.other tokens => tokens

/-- The segment renderings of a list of segments, in order. -/
def renderSegs : List PathSegment → List String
  | [] => []
  | s :: ss => renderSeg s :: renderSegs ss

/-- The token rendering of one path segment. -/
def renderSeg : PathSegment → String
  | PathSegment.mk id PathArguments.none => id
  | PathSegment.mk id (PathArguments.parenthesized tokens) => id ++ (" " ++ tokens)
  | PathSegment.mk id (PathArguments.angleBracketed args) =>
      id ++ (" < " ++ joinSep " , " (renderArgs args) ++ " >")

/-- The token renderings of an angle-bracketed argument list. -/
def renderArgs : List GenericArgument → List String
  | [] => []
  | GenericArgument.typeArg t :: rest => quote_render t :: renderArgs rest
  | GenericArgument.otherArg tokens :: rest => tokens :: renderArgs rest

end

/-- The `Type` struct of src/type.rs: a name and its generic arguments. -/
inductive Ty where
  | mk (name : String) (generics : List Ty)

/-- The `name` field. -/
def Ty.name : Ty → String
  | Ty.mk n _ => n

/-- The `generics` field. -/
def Ty.generics : Ty → List Ty
  | Ty.mk _ g => g

/-- Model of Rust's `str::contains(char)`. -/
def containsChar (s : String) (c : Char) : Bool :=
  s.data.contains c

mutual

/-- `fn split_name_and_generic(ast: &syn::Type) -> Type`.  A path type is
split into the `::`-joined segment identifiers plus the recursively split
type arguments of the *last* segment; on the first non-type generic
argument, or on a non-path type, the whole expression is re-rendered via
`quote` into an opaque name with no generics.  (The joined identifiers can
never contain `<`, since syn identifiers cannot, so the `Type::new` call
the Rust code makes on them takes its verbatim branch, and the
`new_type.generic(...)` pushes always pass their assertion.)
`split_generic_args` is the argument loop: `Option.none` is the early
`return` on a non-type argument. -/
def split_name_and_generic : SynType → Ty
  | SynType.path init (PathSegment.mk id pargs) =>
      let base := joinSep "::" (List.map PathSegment.ident (init ++ [PathSegment.mk id pargs]))
      match pargs with
      | PathArguments.none => Ty.mk base []
      | PathArguments.parenthesized _ => Ty.mk base []
      | PathArguments.angleBracketed args =>
          match split_generic_args args with
          | Option.some gens => Ty.mk base gens
          | Option.none =>
              Ty.mk (quote_render (SynType.path init (PathSegment.mk id pargs))) []
  | SynType.other tokens => Ty.mk tokens []

/-- The argument loop of `split_name_and_generic`. -/
def split_generic_args : List GenericArgument → Option (List Ty)
  | [] => Option.some []
  | GenericArgument.typeArg t :: rest =>
      match split_generic_args rest with
      | Option.some gens => Option.some (split_name_and_generic t :: gens)
      | Option.none => Option.none
  | GenericArgument.otherArg _ :: _ => Option.none

end

/-- `Type::new(name)`.  `parsed` is the result of the black-box
`syn::parse_str::<syn::Type>(&name)` call, performed only when the text
contains `<`; `Option.none` there models a parse failure, on which the
Rust `.unwrap()` panics, making the whole call fail. -/
def Ty.new (name : String) (parsed : Option SynType) : Option Ty :=
  if containsChar name '<' then Option.map split_name_and_generic parsed
  else Option.some (Ty.mk name [])

/-- Does a `::` match start right here?  (Helper for the two
`str` searches for `"::"`.) -/
def sepHere (c : Char) (cs : List Char) : Option (List Char) :=
  match cs with
  | c2 :: r => if c = ':' ∧ c2 = ':' then Option.some r else Option.none
  | [] => Option.none

/-- Model of Rust's `str::contains("::")`: some position starts a `::`. -/
def hasSepChars : List Char → Bool
  | [] => false
  | c :: rest => (sepHere c rest).isSome || hasSepChars rest

/-- Model of `self.name.rfind("::")` followed by `&self.name[index + 2..]`:
the suffix strictly after the *rightmost* occurrence of `::`, if any. -/
def lastSepSuffix : List Char → Option (List Char)
  | [] => Option.none
  | c :: rest =>
      match lastSepSuffix rest with
      | Option.some suf => Option.some suf
      | Option.none => sepHere c rest

/-- `Type::key_for_sorting`. -/
def Ty.key_for_sorting (t : Ty) : String :=
  match lastSepSuffix t.name.data with
  | Option.some suf => String.mk suf
  | Option.none => t.name

/-- `Type::generic`: asserts that `name` does not already embed unparsed
generics, then pushes the argument.  `Option.none` is the assertion
failure. -/
def Ty.generic (t g : Ty) : Option Ty :=
  if containsChar t.name '<' then Option.none
  else Option.some (Ty.mk t.name (t.generics ++ [g]))

/-- `Type::path`: asserts that `name` is not already qualified, then
returns a new node with the prefixed name and a copy of the generics.
`Option.none` is the assertion failure. -/
def Ty.path (t : Ty) (p : String) : Option Ty :=
  if hasSepChars t.name.data then Option.none
  else Option.some (Ty.mk (p ++ "::" ++ t.name) t.generics)

/-- `From<&Type> for Type`: a structural copy; with value semantics,
the identity. -/
def Ty.fromRef (t : Ty) : Ty := t

mutual

/-- `Type::fmt` / `Type::fmt_slice`, modelled as the string written to the
sink: the name, then—when the generics are non-empty—an angle-bracketed,
comma-separated rendering of the generics in stored order.  `fmtRest` is
the loop body for indices `i != 0`. -/
def Ty.fmt : Ty → String
  | Ty.mk n gens => n ++ fmtSlice gens

/-- `Type::fmt_slice` for a non-empty slice. -/
def fmtSlice : List Ty → String
  | [] => ""
  | g :: gs => "<" ++ Ty.fmt g ++ fmtRest gs ++ ">"

/-- The tail of the generics loop in `Type::fmt_slice`. -/
def fmtRest : List Ty → String
  | [] => ""
  | g :: gs => ", " ++ Ty.fmt g ++ fmtRest gs

end

mutual

/-- The spec's data-model invariant, read off one node and its subtree:
whenever `generics` is non-empty, `name` holds no unparsed `<` marker. -/
def Ty.inv : Ty → Bool
  | Ty.mk n gens => (gens.isEmpty || !containsChar n '<') && TyListInv gens

/-- `Ty.inv` over a list of children. -/
def TyListInv : List Ty → Bool
  | [] => true
  | t :: ts => Ty.inv t && TyListInv ts

end

/-- What the black-box grammar guarantees about an identifier it produced:
it is non-empty and contains no `<`.  (syn identifiers are Rust
identifiers.) -/
def wfIdent (id : String) : Bool :=
  !id.data.isEmpty && !containsChar id '<'

mutual

/-- Well-formedness of a syntax tree as actually produced by the black-box
`syn` parse of real source text: identifiers are `wfIdent`, and the opaque
token renderings carried by non-path forms are non-empty. -/
def wfType : SynType → Bool
  | SynType.path init last => wfSegs init && wfSeg last
  | SynType.other tokens => !tokens.data.isEmpty

/-- Well-formedness of a list of segments. -/
def wfSegs : List PathSegment → Bool
  | [] => true
  | s :: ss => wfSeg s && wfSegs ss

/-- Well-formedness of one path segment. -/
def wfSeg : PathSegment → Bool
  | PathSegment.mk id pargs => wfIdent id && wfPathArguments pargs

/-- Well-formedness of a segment's path arguments. -/
def wfPathArguments : PathArguments → Bool
  | PathArguments.none => true
  | PathArguments.parenthesized tokens => !tokens.data.isEmpty
  | PathArguments.angleBracketed args => wfArgs args

/-- Well-formedness of a generic-argument list. -/
def wfArgs : List GenericArgument → Bool
  | [] => true
  | GenericArgument.typeArg t :: rest => wfType t && wfArgs rest
  | GenericArgument.otherArg tokens :: rest => !tokens.data.isEmpty && wfArgs rest

end

/-- `wfType` lifted to a parse result. -/
def wfParse : Option SynType → Bool
  | Option.none => true
  | Option.some t => wfType t

mutual

/-- The domain of the round-trip property: every node of the tree is a
named path, every angle-bracketed entry is a plain type argument, and only
the final segment of each path carries an argument list. -/
def pureType : SynType → Bool
  | SynType.path init last => bareSegs init && pureSeg last
  | SynType.other _ => false

/-- All non-final segments must be bare identifiers. -/
def bareSegs : List PathSegment → Bool
  | [] => true
  | PathSegment.mk _ PathArguments.none :: rest => bareSegs rest
  | PathSegment.mk _ (PathArguments.angleBracketed _) :: _ => false
  | PathSegment.mk _ (PathArguments.parenthesized _) :: _ => false

/-- The final segment: no arguments, or an angle-bracketed list of pure
plain type arguments. -/
def pureSeg : PathSegment → Bool
  | PathSegment.mk _ PathArguments.none => true
  | PathSegment.mk _ (PathArguments.angleBracketed args) => pureArgs args
  | PathSegment.mk _ (PathArguments.parenthesized _) => false

/-- Purity of a generic-argument list: every entry a plain type argument,
itself pure. -/
def pureArgs : List GenericArgument → Bool
  | [] => true
  | GenericArgument.typeArg t :: rest => pureType t && pureArgs rest
  | GenericArgument.otherArg _ :: _ => false

end

mutual

/-- The canonical source text of a type expression, following the spec's
description of the round-trip target: each path segment is its identifier
followed, when it has an angle-bracketed argument list, by `<`, the
comma-and-space-separated canonical arguments, and `>`; segments are
joined with `::`.  On pure inputs this is exactly the (normalized)
original input string. -/
def canonicalText : SynType → String
  | SynType.path init last => joinSep "::" (canonSegs init ++ [canonSeg last])
  | SynType.other tokens => tokens

/-- The canonical texts of a list of segments, in order. -/
def canonSegs : List PathSegment → List String
  | [] => []
  | s :: ss => canonSeg s :: canonSegs ss

/-- The canonical text of one segment. -/
def canonSeg : PathSegment → String
  | PathSegment.mk id PathArguments.none => id
  | PathSegment.mk id (PathArguments.parenthesized tokens) => id ++ tokens
  | PathSegment.mk id (PathArguments.angleBracketed []) => id
  | PathSegment.mk id (PathArguments.angleBracketed (a :: rest)) =>
      id ++ ("<" ++ canonArg a ++ canonRest rest ++ ">")

/-- The canonical text of one generic argument. -/
def canonArg : GenericArgument → String
  | GenericArgument.typeArg t => canonicalText t
  | GenericArgument.otherArg tokens => tokens

/-- The canonical text of the tail of an argument list. -/
def canonRest : List GenericArgument → String
  | [] => ""
  | a :: rest => ", " ++ canonArg a ++ canonRest rest

end

/-- The syntax tree of `u8`. -/
def astU8 : SynType := SynType.path [] (PathSegment.mk "u8" PathArguments.none)

/-- The syntax tree of `Vec<u8>`. -/
def astVecU8 : SynType :=
  SynType.path [] (PathSegment.mk "Vec" (PathArguments.angleBracketed
    [GenericArgument.typeArg astU8]))

/-- The syntax tree of `foo::Vec<u8>`. -/
def astFooVecU8 : SynType :=
  SynType.path [PathSegment.mk "foo" PathArguments.none]
    (PathSegment.mk "Vec" (PathArguments.angleBracketed
      [GenericArgument.typeArg astU8]))

/-- The syntax tree of `Foo<u8>::Bar`: the non-final segment carries the
generic-argument list, the final one is bare. -/
def astMidGenerics : SynType :=
  SynType.path [PathSegment.mk "Foo" (PathArguments.angleBracketed
      [GenericArgument.typeArg astU8])]
    (PathSegment.mk "Bar" PathArguments.none)

/-- The syntax tree of `Foo<1>`: a const-expression generic argument,
which `split_name_and_generic` does not model as a type argument. -/
def astConstArg : SynType :=
  SynType.path [] (PathSegment.mk "Foo" (PathArguments.angleBracketed
    [GenericArgument.otherArg "1"]))

/-! ### Basic string and list lemmas -/

/-- A string is empty iff its character list is. -/
theorem string_eq_empty_iff {s : String} : s = "" ↔ s.data = [] :=
  ⟨fun h => by subst h; rfl, fun h => String.ext h⟩

/-- Appending to a non-empty string on the left stays non-empty. -/
theorem append_ne_empty_left (a b : String) (h : a ≠ "") : a ++ b ≠ "" := by
  intro hc
  have hd := congrArg String.data hc
  rw [String.data_append] at hd
  exact h (string_eq_empty_iff.mpr (List.append_eq_nil.mp hd).1)

/-- `joinSep` of a list with a non-empty head is non-empty. -/
theorem joinSep_cons_ne_empty (sep a : String) (l : List String) (h : a ≠ "") :
    joinSep sep (a :: l) ≠ "" := by
  cases l with
  | nil => simpa [joinSep] using h
  | cons b rest => simpa [joinSep] using append_ne_empty_left a _ h

/-- `containsChar` distributes over string append. -/
theorem containsChar_append (a b : String) (c : Char) :
    containsChar (a ++ b) c = (containsChar a c || containsChar b c) := by
  simp [containsChar, String.data_append]

/-- `joinSep` introduces no character that neither the separator nor any
element holds. -/
theorem joinSep_containsChar_false (sep : String) (c : Char)
    (hs : containsChar sep c = false) :
    ∀ l : List String, (∀ x ∈ l, containsChar x c = false) →
      containsChar (joinSep sep l) c = false
  | [], _ => by simp [joinSep, containsChar]
  | [a], h => by simpa [joinSep] using h a (by simp)
  | a :: b :: rest, h => by
      have ih := joinSep_containsChar_false sep c hs (b :: rest)
        (fun x hx => h x (List.mem_cons_of_mem _ hx))
      simp [joinSep, containsChar_append, h a (by simp), ih, hs]

/-- Appending to the last element of a joined list appends to the join. -/
theorem joinSep_append_last (sep x y : String) :
    ∀ l : List String, joinSep sep (l ++ [x ++ y]) = joinSep sep (l ++ [x]) ++ y
  | [] => by simp [joinSep]
  | [a] => by simp [joinSep, String.append_assoc]
  | a :: b :: rest => by
      have ih := joinSep_append_last sep x y (b :: rest)
      simp only [List.cons_append] at ih ⊢
      simp [joinSep, ih, String.append_assoc]

/-! ### Lemmas about the `::` searches -/

/-- Inversion for a `::` match at one position. -/
theorem sepHere_eq_some {c : Char} {cs r : List Char}
    (h : sepHere c cs = Option.some r) : c = ':' ∧ cs = ':' :: r := by
  cases cs with
  | nil => exact absurd h (by simp [sepHere])
  | cons c2 rest =>
      simp only [sepHere] at h
      split at h
      · next hc => injection h with h2; subst h2; exact ⟨hc.1, by rw [hc.2]⟩
      · exact absurd h (by simp)

/-- A rightmost `::` exists exactly when some `::` exists. -/
theorem lastSepSuffix_isSome : ∀ cs : List Char,
    (lastSepSuffix cs).isSome = hasSepChars cs
  | [] => rfl
  | c :: rest => by
      have ih := lastSepSuffix_isSome rest
      cases h : lastSepSuffix rest with
      | some suf => simp [lastSepSuffix, hasSepChars, h, ← ih]
      | none => simp [lastSepSuffix, hasSepChars, h, ← ih]

/-- The suffix `lastSepSuffix` returns is cut at the rightmost `::`: the
list decomposes around a `::`, and no further `::` starts at or after the
character following the matched position. -/
theorem lastSepSuffix_decomp : ∀ (cs suf : List Char),
    lastSepSuffix cs = Option.some suf →
    ∃ pre, cs = pre ++ ':' :: ':' :: suf ∧ hasSepChars (':' :: suf) = false
  | [], suf, h => by simp [lastSepSuffix] at h
  | c :: rest, suf, h => by
      rw [lastSepSuffix] at h
      cases h0 : lastSepSuffix rest with
      | some suf0 =>
          rw [h0] at h
          have h1 : suf0 = suf := by injection h
          obtain ⟨pre0, hr, hfree⟩ := lastSepSuffix_decomp rest suf0 h0
          refine ⟨c :: pre0, ?_, ?_⟩
          · rw [hr, h1]; rfl
          · rw [← h1]; exact hfree
      | none =>
          rw [h0] at h
          have h2 : sepHere c rest = Option.some suf := h
          obtain ⟨hc, hrest⟩ := sepHere_eq_some h2
          subst hc
          refine ⟨[], ?_, ?_⟩
          · rw [hrest]; rfl
          · have hnone : hasSepChars rest = false := by
              rw [← lastSepSuffix_isSome rest, h0]; rfl
            rw [hrest] at hnone
            exact hnone

/-! ### C6, C2: construction -/

/-- C6: for every input text without a `<` character, `Type::new` returns
the text verbatim as the name, with no generic arguments. -/
theorem c6_fast_path_verbatim (name : String) (parsed : Option SynType)
    (h : containsChar name '<' = false) :
    Ty.new name parsed = Option.some (Ty.mk name []) := by
  simp [Ty.new, h]

theorem c6_fast_path_verbatim_witness :
    Ty.new "foo::Vec" Option.none = Option.some (Ty.mk "foo::Vec" []) :=
  c6_fast_path_verbatim "foo::Vec" Option.none (by decide)

/-- C2 (counterexample): on the input `"<"`, which contains `<` but is not
parseable as a type expression (so the black-box parse fails), `Type::new`
unwraps the failed parse and panics instead of producing a node. -/
theorem c2_total_construction_counterexample :
    Ty.new "<" Option.none = Option.none := rfl

/-- C2 (amended): `Type::new` produces a node whenever the text has no `<`,
or the black-box parse of the text succeeds; only a failed parse of a
`<`-containing text makes it fail.  In particular decomposition itself
(`split_name_and_generic`) is total. -/
theorem c2_total_construction (name : String) (parsed : Option SynType)
    (h : containsChar name '<' = false ∨ parsed.isSome = true) :
    (Ty.new name parsed).isSome = true := by
  unfold Ty.new
  cases h with
  | inl h => simp [h]
  | inr h =>
      split
      · simpa using h
      · rfl

theorem c2_total_construction_witness :
    (Ty.new "Vec<u8>" (Option.some astVecU8)).isSome = true ∧
    (Ty.new "u8" Option.none).isSome = true :=
  ⟨c2_total_construction "Vec<u8>" (Option.some astVecU8) (Or.inr rfl),
   c2_total_construction "u8" Option.none (Or.inl (by decide))⟩

/-! ### C3: whole-node abort on an unmodelled generic argument -/

/-- The argument loop aborts as soon as the list holds any entry that is
not a plain type argument. -/
theorem split_generic_args_none_of_other :
    ∀ args : List GenericArgument,
      (∃ a ∈ args, GenericArgument.isOther a = true) →
      split_generic_args args = Option.none
  | [], h => by simp at h
  | GenericArgument.typeArg t :: rest, h => by
      obtain ⟨a, ha, ho⟩ := h
      rcases List.mem_cons.mp ha with rfl | ha2
      · simp [GenericArgument.isOther] at ho
      · have ih := split_generic_args_none_of_other rest ⟨a, ha2, ho⟩
        simp [split_generic_args, ih]
  | GenericArgument.otherArg toks :: rest, _ => by simp [split_generic_args]

/-- C3: if the angle-bracketed list of the final segment holds at least one
entry that is not a plain type argument, the whole node falls back to the
verbatim `quote` re-rendering of the original expression with empty
generics — no partial decomposition survives. -/
theorem c3_abort_whole_node (init : List PathSegment) (id : String)
    (args : List GenericArgument)
    (h : ∃ a ∈ args, GenericArgument.isOther a = true) :
    split_name_and_generic
        (SynType.path init (PathSegment.mk id (PathArguments.angleBracketed args)))
      = Ty.mk (quote_render
          (SynType.path init (PathSegment.mk id (PathArguments.angleBracketed args)))) [] := by
  have habort := split_generic_args_none_of_other args h
  rw [split_name_and_generic, habort]

theorem c3_abort_whole_node_witness :
    split_name_and_generic astConstArg = Ty.mk "Foo < 1 >" [] :=
  (c3_abort_whole_node [] "Foo" [GenericArgument.otherArg "1"]
    ⟨GenericArgument.otherArg "1", by simp, rfl⟩).trans rfl

/-! ### C7: `Type::generic` -/

/-- C7: `generic` fails exactly when the receiver's name holds `<`; on a
clean name it appends the argument at the end, and repeated calls keep the
call order. -/
theorem c7_generic_append (t g : Ty) :
    (containsChar t.name '<' = true → Ty.generic t g = Option.none) ∧
    (containsChar t.name '<' = false →
      Ty.generic t g = Option.some (Ty.mk t.name (t.generics ++ [g])) ∧
      ∀ g2, (Ty.generic t g).bind (fun u => Ty.generic u g2)
          = Option.some (Ty.mk t.name (t.generics ++ [g, g2]))) := by
  cases t with
  | mk n gens =>
      refine ⟨fun h => by simp [Ty.generic, h], fun h => ⟨by simp [Ty.generic, h], fun g2 => ?_⟩⟩
      simp only [Ty.name] at h
      simp [Ty.generic, Ty.name, Ty.generics, h, List.append_assoc]

theorem c7_generic_append_witness :
    Ty.generic (Ty.mk "Vec<u8>" []) (Ty.mk "u8" []) = Option.none ∧
    Ty.generic (Ty.mk "Vec" []) (Ty.mk "u8" [])
      = Option.some (Ty.mk "Vec" [Ty.mk "u8" []]) :=
  ⟨(c7_generic_append (Ty.mk "Vec<u8>" []) (Ty.mk "u8" [])).1 (by decide),
   ((c7_generic_append (Ty.mk "Vec" []) (Ty.mk "u8" [])).2 (by decide)).1⟩

/-! ### C9: `Type::path` -/

/-- C9: on a receiver whose name holds no `::`, `path` returns a new node
with the prefixed name and the same generics (the receiver itself, a plain
value, is untouched); on an already-qualified name it fails. -/
theorem c9_path_qualify (t : Ty) (p : String) :
    (hasSepChars t.name.data = false →
      Ty.path t p = Option.some (Ty.mk (p ++ "::" ++ t.name) t.generics)) ∧
    (hasSepChars t.name.data = true → Ty.path t p = Option.none) := by
  constructor <;> intro h <;> simp [Ty.path, h]

theorem c9_path_qualify_witness :
    Ty.path (Ty.mk "Vec" [Ty.mk "u8" []]) "foo"
      = Option.some (Ty.mk "foo::Vec" [Ty.mk "u8" []]) ∧
    Ty.path (Ty.mk "foo::Vec" []) "bar" = Option.none :=
  ⟨((c9_path_qualify (Ty.mk "Vec" [Ty.mk "u8" []]) "foo").1 (by decide)).trans rfl,
   (c9_path_qualify (Ty.mk "foo::Vec" []) "bar").2 (by decide)⟩

/-! ### C10: only the last segment's argument list is read -/

/-- C10: decomposition reads the angle-bracketed list only from the last
segment: whenever the final segment is bare, the result is the `::`-joined
segment identifiers with no generics, whatever argument lists the earlier
segments carry; concretely, `new("Foo<u8>::Bar")` yields the node
`Foo::Bar` with empty generics, silently dropping the mid-path `<u8>`. -/
theorem c10_mid_path_generics_dropped (init : List PathSegment) (id : String) :
    split_name_and_generic (SynType.path init (PathSegment.mk id PathArguments.none))
      = Ty.mk (joinSep "::"
          (List.map PathSegment.ident (init ++ [PathSegment.mk id PathArguments.none]))) [] ∧
    Ty.new "Foo<u8>::Bar" (Option.some astMidGenerics)
      = Option.some (Ty.mk "Foo::Bar" []) :=
  ⟨by rw [split_name_and_generic], rfl⟩

/-! ### C8: `Type::key_for_sorting` -/

/-- C8: the sort key is the part of `name` strictly after the rightmost
`::` (the decomposition below pins the matched `::` as the rightmost one:
no further `::` starts at or after the following character), the whole
`name` when no `::` occurs, and the generics play no role. -/
theorem c8_key_for_sorting_tail (t : Ty) :
    (∀ gs, Ty.key_for_sorting (Ty.mk t.name gs) = Ty.key_for_sorting t) ∧
    (hasSepChars t.name.data = false → Ty.key_for_sorting t = t.name) ∧
    (hasSepChars t.name.data = true →
      ∃ pre, t.name.data = pre ++ ':' :: ':' :: (Ty.key_for_sorting t).data ∧
        hasSepChars (':' :: (Ty.key_for_sorting t).data) = false) := by
  refine ⟨fun gs => by cases t; rfl, fun h => ?_, fun h => ?_⟩
  · have h2 : lastSepSuffix t.name.data = Option.none := by
      have := lastSepSuffix_isSome t.name.data
      rw [h] at this
      exact Option.not_isSome_iff_eq_none.mp (by rw [this]; simp)
    rw [Ty.key_for_sorting, h2]
  · have h2 : (lastSepSuffix t.name.data).isSome = true := by
      rw [lastSepSuffix_isSome t.name.data, h]
    obtain ⟨suf, hsuf⟩ := Option.isSome_iff_exists.mp h2
    obtain ⟨pre, hdec, hfree⟩ := lastSepSuffix_decomp t.name.data suf hsuf
    refine ⟨pre, ?_, ?_⟩
    · rw [Ty.key_for_sorting, hsuf]; exact hdec
    · rw [Ty.key_for_sorting, hsuf]; exact hfree

theorem c8_key_for_sorting_tail_witness :
    Ty.key_for_sorting (Ty.mk "u8" []) = "u8" ∧
    Ty.key_for_sorting (Ty.mk "foo::Vec" []) = "Vec" ∧
    ∃ pre, ("foo::Vec").data = pre ++ ':' :: ':' ::
        (Ty.key_for_sorting (Ty.mk "foo::Vec" [])).data ∧
      hasSepChars (':' :: (Ty.key_for_sorting (Ty.mk "foo::Vec" [])).data) = false :=
  ⟨(c8_key_for_sorting_tail (Ty.mk "u8" [])).2.1 (by decide), rfl,
   (c8_key_for_sorting_tail (Ty.mk "foo::Vec" [])).2.2 (by decide)⟩

/-! ### C5: non-empty names -/

/-- A well-formed identifier is non-empty and `<`-free. -/
theorem wfIdent_spec {id : String} (h : wfIdent id = true) :
    id ≠ "" ∧ containsChar id '<' = false := by
  rw [wfIdent, Bool.and_eq_true] at h
  refine ⟨fun he => ?_, by simpa using h.2⟩
  subst he
  exact absurd h.1 (by decide)

/-- A well-formed segment has a non-empty, `<`-free identifier. -/
theorem wfSeg_ident {s : PathSegment} (h : wfSeg s = true) :
    s.ident ≠ "" ∧ containsChar s.ident '<' = false := by
  cases s with
  | mk id pargs =>
      rw [wfSeg, Bool.and_eq_true] at h
      exact wfIdent_spec h.1

/-- The `::`-joined identifiers of a well-formed segment list are
non-empty. -/
theorem joined_idents_ne_empty (init : List PathSegment) (last : PathSegment)
    (hinit : wfSegs init = true) (hlast : wfSeg last = true) :
    joinSep "::" (List.map PathSegment.ident (init ++ [last])) ≠ "" := by
  cases init with
  | nil => simpa [joinSep] using (wfSeg_ident hlast).1
  | cons s ss =>
      have hs : wfSeg s = true := by
        rw [wfSegs, Bool.and_eq_true] at hinit
        exact hinit.1
      simp only [List.cons_append, List.map_cons]
      exact joinSep_cons_ne_empty _ _ _ (wfSeg_ident hs).1

/-- The token rendering of a well-formed segment is non-empty. -/
theorem renderSeg_ne_empty {s : PathSegment} (h : wfSeg s = true) :
    renderSeg s ≠ "" := by
  have hid := (wfSeg_ident h).1
  cases s with
  | mk id pargs =>
      simp only [PathSegment.ident] at hid
      cases pargs with
      | none => simpa [renderSeg] using hid
      | parenthesized toks => simpa [renderSeg] using append_ne_empty_left id _ hid
      | angleBracketed args => simpa [renderSeg] using append_ne_empty_left id _ hid

/-- The `quote` re-rendering of a well-formed path is non-empty. -/
theorem quote_render_path_ne_empty (init : List PathSegment) (last : PathSegment)
    (hinit : wfSegs init = true) (hlast : wfSeg last = true) :
    quote_render (SynType.path init last) ≠ "" := by
  cases init with
  | nil => simpa [quote_render, renderSegs, joinSep] using renderSeg_ne_empty hlast
  | cons s ss =>
      have hs : wfSeg s = true := by
        rw [wfSegs, Bool.and_eq_true] at hinit
        exact hinit.1
      simp only [quote_render, renderSegs, List.cons_append]
      exact joinSep_cons_ne_empty _ _ _ (renderSeg_ne_empty hs)

/-- Decomposition of a well-formed syntax tree never yields an empty
name. -/
theorem split_name_ne_empty (ast : SynType) (h : wfType ast = true) :
    (split_name_and_generic ast).name ≠ "" := by
  cases ast with
  | other toks =>
      have hne : toks ≠ "" := by
        intro he
        subst he
        rw [wfType] at h
        exact absurd h (by decide)
      simpa [split_name_and_generic, Ty.name] using hne
  | path init last =>
      cases last with
      | mk id pargs =>
          rw [wfType, Bool.and_eq_true] at h
          obtain ⟨hinit, hlast⟩ := h
          have hbase := joined_idents_ne_empty init (PathSegment.mk id pargs) hinit hlast
          have hrender := quote_render_path_ne_empty init (PathSegment.mk id pargs) hinit hlast
          cases pargs with
          | none => simpa [split_name_and_generic, Ty.name] using hbase
          | parenthesized toks => simpa [split_name_and_generic, Ty.name] using hbase
          | angleBracketed args =>
              cases hsp : split_generic_args args with
              | some gens => simpa [split_name_and_generic, hsp, Ty.name] using hbase
              | none => simpa [split_name_and_generic, hsp, Ty.name] using hrender

/-- C5 (counterexample): `Type::new("")` takes the verbatim fast path and
produces a node whose name is the empty string. -/
theorem c5_name_never_empty_counterexample :
    Ty.new "" Option.none = Option.some (Ty.mk "" []) ∧ (Ty.mk "" []).name = "" :=
  ⟨rfl, rfl⟩

/-- C5 (amended): for every NON-EMPTY input text, every node produced by
`new` (under the well-formedness the black-box grammar guarantees) has a
non-empty name; `new("")` itself stores the empty name verbatim. -/
theorem c5_name_never_empty (name : String) (parsed : Option SynType) (t : Ty)
    (hn : name ≠ "") (hw : wfParse parsed = true)
    (h : Ty.new name parsed = Option.some t) : t.name ≠ "" := by
  unfold Ty.new at h
  split at h
  · cases parsed with
    | none => exact absurd h (by simp)
    | some ast =>
        have hast : split_name_and_generic ast = t := by simpa using h
        have hwt : wfType ast = true := by simpa [wfParse] using hw
        rw [← hast]
        exact split_name_ne_empty ast hwt
  · have heq : Ty.mk name [] = t := by simpa using h
    rw [← heq]
    exact hn

theorem c5_name_never_empty_witness : (Ty.mk "Vec" [Ty.mk "u8" []]).name ≠ "" :=
  c5_name_never_empty "Vec<u8>" (Option.some astVecU8) (Ty.mk "Vec" [Ty.mk "u8" []])
    (by decide) rfl rfl

/-! ### C4: the generics/name invariant -/

/-- `TyListInv` over an append. -/
theorem TyListInv_append : ∀ l1 l2 : List Ty,
    TyListInv (l1 ++ l2) = (TyListInv l1 && TyListInv l2)
  | [], l2 => by simp [TyListInv]
  | t :: ts, l2 => by simp [TyListInv, TyListInv_append ts l2, Bool.and_assoc]

/-- All identifiers of a well-formed segment list are `<`-free. -/
theorem wfSegs_idents_lt_free : ∀ (init : List PathSegment) (last : PathSegment),
    wfSegs init = true → wfSeg last = true →
    ∀ x ∈ List.map PathSegment.ident (init ++ [last]), containsChar x '<' = false
  | [], last, _, hlast => by
      intro x hx
      simp only [List.nil_append, List.map_cons, List.map_nil, List.mem_singleton] at hx
      subst hx
      exact (wfSeg_ident hlast).2
  | s :: ss, last, hinit, hlast => by
      rw [wfSegs, Bool.and_eq_true] at hinit
      intro x hx
      simp only [List.cons_append, List.map_cons, List.mem_cons] at hx
      rcases hx with rfl | hx2
      · exact (wfSeg_ident hinit.1).2
      · exact wfSegs_idents_lt_free ss last hinit.2 hlast x hx2

mutual

/-- Decomposition of a well-formed tree establishes the invariant on the
whole resulting subtree. -/
theorem split_inv : ∀ ast : SynType, wfType ast = true →
    Ty.inv (split_name_and_generic ast) = true
  | SynType.other toks, _ => by
      simp [split_name_and_generic, Ty.inv, TyListInv]
  | SynType.path init (PathSegment.mk id pargs), h => by
      rw [wfType, Bool.and_eq_true] at h
      obtain ⟨hinit, hlast⟩ := h
      have hbase : containsChar
          (joinSep "::" (List.map PathSegment.ident
            (init ++ [PathSegment.mk id pargs]))) '<' = false :=
        joinSep_containsChar_false "::" '<' (by decide) _
          (wfSegs_idents_lt_free init _ hinit hlast)
      cases pargs with
      | none => simp [split_name_and_generic, Ty.inv, TyListInv]
      | parenthesized toks => simp [split_name_and_generic, Ty.inv, TyListInv]
      | angleBracketed args =>
          have hargs : wfArgs args = true := by
            rw [wfSeg, Bool.and_eq_true] at hlast
            have h2 := hlast.2
            rw [wfPathArguments] at h2
            exact h2
          cases hsp : split_generic_args args with
          | some gens =>
              have hlist := split_args_inv args hargs gens hsp
              simp only [List.map_append, List.map_cons, List.map_nil, PathSegment.ident] at hbase
              simp [split_name_and_generic, hsp, Ty.inv, hlist, hbase,
                PathSegment.ident]
          | none => simp [split_name_and_generic, hsp, Ty.inv, TyListInv]

/-- The argument loop yields an invariant-satisfying list whenever it
succeeds on well-formed arguments. -/
theorem split_args_inv : ∀ args : List GenericArgument, wfArgs args = true →
    ∀ gens, split_generic_args args = Option.some gens → TyListInv gens = true
  | [], _, gens, hsp => by
      rw [split_generic_args] at hsp
      have h0 : ([] : List Ty) = gens := by simpa using hsp
      rw [← h0]
      rfl
  | GenericArgument.typeArg t :: rest, h, gens, hsp => by
      rw [wfArgs, Bool.and_eq_true] at h
      cases hr : split_generic_args rest with
      | none => rw [split_generic_args, hr] at hsp; exact absurd hsp (by simp)
      | some gens0 =>
          rw [split_generic_args, hr] at hsp
          have hg : split_name_and_generic t :: gens0 = gens := by simpa using hsp
          rw [← hg]
          simp [TyListInv, split_inv t h.1, split_args_inv rest h.2 gens0 hr]
  | GenericArgument.otherArg toks :: rest, _, gens, hsp => by
      rw [split_generic_args] at hsp
      exact absurd hsp (by simp)

end

/-- C4 (counterexample): starting from the reachable, invariant-satisfying
node `new("Vec<u8>")`, calling `path` with the prefix `"A<B"` yields a node
with non-empty generics whose name embeds `<`, violating the invariant.

`path` never inspects its prefix, so the operation does not preserve the
invariant for arbitrary inputs. -/
theorem c4_invariant_counterexample :
    Ty.new "Vec<u8>" (Option.some astVecU8)
      = Option.some (Ty.mk "Vec" [Ty.mk "u8" []]) ∧
    Ty.inv (Ty.mk "Vec" [Ty.mk "u8" []]) = true ∧
    Ty.path (Ty.mk "Vec" [Ty.mk "u8" []]) "A<B"
      = Option.some (Ty.mk "A<B::Vec" [Ty.mk "u8" []]) ∧
    Ty.inv (Ty.mk "A<B::Vec" [Ty.mk "u8" []]) = false :=
  ⟨rfl, rfl, rfl, rfl⟩

/-- C4 (amended): the invariant is established by `new` (on well-formed
parses) and preserved by `generic`, by the copying conversion, and by
`path` whenever the supplied prefix holds no `<` marker. -/
theorem c4_invariant_preserved :
    (∀ name parsed t, wfParse parsed = true →
        Ty.new name parsed = Option.some t → Ty.inv t = true) ∧
    (∀ t g u, Ty.inv t = true → Ty.inv g = true →
        Ty.generic t g = Option.some u → Ty.inv u = true) ∧
    (∀ t p u, Ty.inv t = true → containsChar p '<' = false →
        Ty.path t p = Option.some u → Ty.inv u = true) ∧
    (∀ t, Ty.inv t = true → Ty.inv (Ty.fromRef t) = true) := by
  refine ⟨?_, ?_, ?_, fun t h => h⟩
  · intro name parsed t hw h
    unfold Ty.new at h
    split at h
    · cases parsed with
      | none => exact absurd h (by simp)
      | some ast =>
          have hast : split_name_and_generic ast = t := by simpa using h
          rw [← hast]
          exact split_inv ast (by simpa [wfParse] using hw)
    · have heq : Ty.mk name [] = t := by simpa using h
      rw [← heq]
      simp [Ty.inv, TyListInv]
  · intro t g u hti hgi h
    cases t with
    | mk n gens =>
        unfold Ty.generic at h
        split at h
        · exact absurd h (by simp)
        · next hcond =>
            have hc : containsChar n '<' = false := by
              simpa [Ty.name] using hcond
            have heq : Ty.mk n (gens ++ [g]) = u := by
              simpa [Ty.name, Ty.generics] using h
            rw [Ty.inv, Bool.and_eq_true] at hti
            rw [← heq]
            simp [Ty.inv, TyListInv_append, TyListInv, hc, hti.2, hgi]
  · intro t p u hti hp h
    cases t with
    | mk n gens =>
        unfold Ty.path at h
        split at h
        · exact absurd h (by simp)
        · have heq : Ty.mk (p ++ "::" ++ n) gens = u := by
            simpa [Ty.name, Ty.generics] using h
          rw [Ty.inv, Bool.and_eq_true] at hti
          rw [← heq]
          cases gens with
          | nil => simp [Ty.inv, TyListInv]
          | cons g0 gs =>
              have hn : containsChar n '<' = false := by simpa using hti.1
              have hfull : containsChar (p ++ "::" ++ n) '<' = false := by
                simp [containsChar_append, hp, hn,
                  show containsChar "::" '<' = false from by decide]
              simp [Ty.inv, hfull, hti.2]

theorem c4_invariant_preserved_witness :
    Ty.inv (Ty.mk "foo::Vec" [Ty.mk "u8" []]) = true :=
  c4_invariant_preserved.2.2.1 (Ty.mk "Vec" [Ty.mk "u8" []]) "foo"
    (Ty.mk "foo::Vec" [Ty.mk "u8" []]) (by decide) (by decide) rfl

/-! ### C1: the round trip -/

/-- Pointwise-equal renderings give equal comma-separated tails. -/
theorem fmtRest_eq_canonRest {gens : List Ty} {args : List GenericArgument}
    (h : List.Forall₂ (fun g a => Ty.fmt g = canonArg a) gens args) :
    fmtRest gens = canonRest args := by
  induction h with
  | nil => rfl
  | cons hga _ ih => simp [fmtRest, canonRest, hga, ih]

/-- On bare segments the canonical text is just the identifier. -/
theorem bare_canonSegs : ∀ init : List PathSegment, bareSegs init = true →
    canonSegs init = List.map PathSegment.ident init
  | [], _ => rfl
  | PathSegment.mk id PathArguments.none :: rest, h => by
      rw [bareSegs] at h
      simp [canonSegs, canonSeg, PathSegment.ident, bare_canonSegs rest h]
  | PathSegment.mk id (PathArguments.angleBracketed a) :: rest, h => by
      rw [bareSegs] at h
      exact absurd h (by simp)
  | PathSegment.mk id (PathArguments.parenthesized a) :: rest, h => by
      rw [bareSegs] at h
      exact absurd h (by simp)

mutual

/-- On the pure fragment, decompose-then-render reproduces the canonical
text of the input expression. -/
theorem fmt_split_eq_canonical : ∀ ast : SynType, pureType ast = true →
    Ty.fmt (split_name_and_generic ast) = canonicalText ast
  | SynType.other toks, h => by
      rw [pureType] at h
      exact absurd h (by simp)
  | SynType.path init (PathSegment.mk id pargs), h => by
      rw [pureType, Bool.and_eq_true] at h
      obtain ⟨hbare, hpure⟩ := h
      cases pargs with
      | parenthesized toks =>
          rw [pureSeg] at hpure
          exact absurd hpure (by simp)
      | none =>
          simp [split_name_and_generic, Ty.fmt, fmtSlice, canonicalText,
            bare_canonSegs init hbare, canonSeg, List.map_append, PathSegment.ident]
      | angleBracketed args =>
          rw [pureSeg] at hpure
          obtain ⟨gens, hsp, hf⟩ := fmt_split_args args hpure
          cases hf with
          | nil =>
              simp [split_name_and_generic, hsp, Ty.fmt, fmtSlice, canonicalText,
                bare_canonSegs init hbare, canonSeg, List.map_append, PathSegment.ident]
          | @cons g a gs rest hga hrest =>
              have hcr := fmtRest_eq_canonRest hrest
              have hsplit : split_name_and_generic
                  (SynType.path init
                    (PathSegment.mk id (PathArguments.angleBracketed (a :: rest))))
                  = Ty.mk (joinSep "::" (List.map PathSegment.ident init ++ [id]))
                      (g :: gs) := by
                simp [split_name_and_generic, hsp, List.map_append, PathSegment.ident]
              rw [hsplit]
              rw [canonicalText, bare_canonSegs init hbare, canonSeg]
              rw [joinSep_append_last]
              simp [Ty.fmt, fmtSlice, hga, hcr]

/-- On a pure argument list, the argument loop succeeds and each resulting
child renders to the canonical text of its source argument. -/
theorem fmt_split_args : ∀ args : List GenericArgument, pureArgs args = true →
    ∃ gens, split_generic_args args = Option.some gens ∧
      List.Forall₂ (fun g a => Ty.fmt g = canonArg a) gens args
  | [], _ => ⟨[], rfl, List.Forall₂.nil⟩
  | GenericArgument.typeArg t :: rest, h => by
      rw [pureArgs, Bool.and_eq_true] at h
      obtain ⟨gens0, hsp0, hf0⟩ := fmt_split_args rest h.2
      refine ⟨split_name_and_generic t :: gens0, ?_, ?_⟩
      · rw [split_generic_args, hsp0]
      · exact List.Forall₂.cons (fmt_split_eq_canonical t h.1) hf0
  | GenericArgument.otherArg toks :: rest, h => by
      rw [pureArgs] at h
      exact absurd h (by simp)

end

/-- C1 (counterexample): the input `Foo<u8>::Bar` is a type expression
composed only of named paths whose angle-bracket entries are all plain
type arguments, yet the node `new` produces renders as `Foo::Bar`, which
is not equivalent to the original input (its canonical text): the
mid-path generic list is lost. -/
theorem c1_round_trip_counterexample :
    Ty.new "Foo<u8>::Bar" (Option.some astMidGenerics)
      = Option.some (split_name_and_generic astMidGenerics) ∧
    Ty.fmt (split_name_and_generic astMidGenerics) = "Foo::Bar" ∧
    canonicalText astMidGenerics = "Foo<u8>::Bar" ∧
    "Foo::Bar" ≠ "Foo<u8>::Bar" :=
  ⟨rfl, rfl, rfl, by decide⟩

/-- C1 (amended): for every type expression composed only of named paths
whose angle-bracket entries are all plain type arguments AND whose
generic-argument lists sit only on the final segment of each path,
rendering the decomposed node via `fmt` reproduces the canonical text of
the input (the module-qualified name followed by the recursively rendered
generic arguments); on such inputs containing `<`, `new` returns exactly
that decomposed node. -/
theorem c1_round_trip (ast : SynType) (h : pureType ast = true) :
    Ty.fmt (split_name_and_generic ast) = canonicalText ast ∧
    ∀ s, containsChar s '<' = true →
      Ty.new s (Option.some ast) = Option.some (split_name_and_generic ast) :=
  ⟨fmt_split_eq_canonical ast h, fun s hs => by simp [Ty.new, hs]⟩

theorem c1_round_trip_witness :
    Ty.fmt (split_name_and_generic astFooVecU8) = canonicalText astFooVecU8 ∧
    canonicalText astFooVecU8 = "foo::Vec<u8>" ∧
    Ty.new "foo::Vec<u8>" (Option.some astFooVecU8)
      = Option.some (split_name_and_generic astFooVecU8) :=
  ⟨(c1_round_trip astFooVecU8 (by decide)).1, rfl,
   (c1_round_trip astFooVecU8 (by decide)).2 "foo::Vec<u8>" (by decide)⟩
